import Mathlib

/-
Verification of the entity-resolution pipeline in
src/server/scripts/importAllData.py.

Strings are modelled as lists of characters (Str). Character-level
operations (upper/lower case, whitespace, character classes) are modelled
on the ASCII subset, matching Python semantics on the catalog/SKU data the
program handles; Char.toUpper / Char.toLower are exactly the ASCII case
maps. Python truthiness of a string ("if not s") is modelled by testing
for none / the empty list.
-/

abbrev Str := List Char

/-- Python regex \s and str.strip whitespace class (ASCII). -/
def isPySpaceB (c : Char) : Bool :=
  c == ' ' || c == '\t' || c == '\n' || c == '\r' || c == '\x0b' || c == '\x0c'

/-- The character class [a-z0-9] used by fingerprint_title's regex. -/
def isLowerAlnum (c : Char) : Bool :=
  ('a' ≤ c && c ≤ 'z') || ('0' ≤ c && c ≤ '9')

/-- ASCII alphanumeric characters (either case, or digit). -/
def isAsciiAlnum (c : Char) : Bool :=
  ('a' ≤ c && c ≤ 'z') || ('A' ≤ c && c ≤ 'Z') || ('0' ≤ c && c ≤ '9')

/-- Python str.upper (ASCII model). -/
def upperStr (s : Str) : Str := s.map Char.toUpper

/-- Python str.lower (ASCII model). -/
def lowerStr (s : Str) : Str := s.map Char.toLower

/-- Remove trailing whitespace (right half of Python str.strip). -/
def dropTrailingWS (l : Str) : Str := ((l.reverse).dropWhile isPySpaceB).reverse

/-- Python str.strip(). -/
def stripWS (l : Str) : Str := dropTrailingWS (l.dropWhile isPySpaceB)

/-- Python substring test: needle in hay. -/
def isSubstr : Str → Str → Bool
  | needle, [] => needle == []
  | needle, c :: cs => needle.isPrefixOf (c :: cs) || isSubstr needle cs

/-- normalize_sku (importAllData.py lines 35-39): trim and uppercase,
none for missing/empty input. -/
def normalize_sku : Option Str → Option Str
  | none => none
  | some s => if s = [] then none else some (upperStr (stripWS s))

/-- Replacement of every character outside [a-z0-9\s] by a space,
modelling re.sub applied to the lowercased title. -/
def subNonAlnum (c : Char) : Char :=
  if isLowerAlnum c then c else if isPySpaceB c then c else ' '

/-- Scanner for collapseWS: the flag records whether the previous
character was whitespace (so the current run is already represented). -/
def collapseAux : Bool → Str → Str
  | _, [] => []
  | prev, c :: cs =>
    if isPySpaceB c then
      (if prev then collapseAux true cs else ' ' :: collapseAux true cs)
    else c :: collapseAux false cs

/-- re.sub(r'\s+', ' ', fp): each maximal whitespace run becomes one
space. -/
def collapseWS (l : Str) : Str := collapseAux false l

/-- fingerprint_title (importAllData.py lines 41-49): lowercase, replace
characters outside [a-z0-9\s] by spaces, collapse whitespace runs, trim;
none for missing/empty input. -/
def fingerprint_title : Option Str → Option Str
  | none => none
  | some title =>
    if title = [] then none
    else some (stripWS (collapseWS ((title.map Char.toLower).map subNonAlnum)))

/-- hash_fingerprint (importAllData.py lines 51-55). The digest itself is
hashlib.sha256 from the Python standard library (external to this
repository), so it is passed in as a parameter; the function's own logic
is the none/empty guard. -/
def hash_fingerprint (digest : Str → Str) : Option Str → Option Str
  | none => none
  | some fp => if fp = [] then none else some (digest fp)

/-- re.split(r'[+/]', sku). -/
def splitJoins : Str → List Str
  | [] => [[]]
  | c :: cs =>
    if c = '+' ∨ c = '/' then [] :: splitJoins cs
    else
      match splitJoins cs with
      | [] => [[c]]
      | s :: ss => (c :: s) :: ss

/-- Python int() on a digit string. -/
def natOfDigits (ds : Str) : Nat := ds.foldl (fun n c => 10 * n + (c.toNat - 48)) 0

/-- Quantity-marker shape 1, re.match(r'^(\d+)x(.+)$', part, IGNORECASE)
on a stripped segment: maximal leading digit run, an x or X, then a
nonempty remainder with no newline (the dot does not match newlines).
Returns (digits, remainder). -/
def qtyPre (part : Str) : Option (Str × Str) :=
  let ds := part.takeWhile Char.isDigit
  if ds = [] then none
  else
    match part.dropWhile Char.isDigit with
    | [] => none
    | c :: rest =>
      if (c = 'x' ∨ c = 'X') ∧ rest ≠ [] ∧ ¬ ('\n' ∈ rest) then some (ds, rest)
      else none

/-- Quantity-marker shape 2, re.match(r'^(.+)\(x(\d+)\)$', part,
IGNORECASE) on a stripped segment: the segment ends with an
open-paren, x or X, a nonempty digit run and a close-paren, preceded by a
nonempty pattern with no newline. Returns (pattern, digits). -/
def qtySuf (part : Str) : Option (Str × Str) :=
  match part.reverse with
  | ')' :: rest1 =>
    let dsRev := rest1.takeWhile Char.isDigit
    if dsRev = [] then none
    else
      match rest1.dropWhile Char.isDigit with
      | xc :: '(' :: pRev =>
        if (xc = 'x' ∨ xc = 'X') ∧ pRev ≠ [] ∧ ¬ ('\n' ∈ pRev) then
          some (pRev.reverse, dsRev.reverse)
        else none
      | _ => none
  | _ => none

/-- Per-segment decomposition of parse_compound_sku (lines 74-88): try
the prefix quantity shape, then the suffix shape, else quantity 1. -/
def parseSegment (part : Str) : Str × Nat :=
  match qtyPre part with
  | some (ds, rest) => (stripWS rest, natOfDigits ds)
  | none =>
    match qtySuf part with
    | some (p, ds) => (stripWS p, natOfDigits ds)
    | none => (part, 1)

/-- parse_compound_sku (importAllData.py lines 57-90): split on + or /,
strip each part, silently skip empty parts, decompose the rest. -/
def parse_compound_sku : Option Str → List (Str × Nat)
  | none => []
  | some sku =>
    if sku = [] then []
    else
      (splitJoins sku).filterMap (fun part =>
        let p := stripWS part
        if p = [] then none else some (parseSegment p))

/-- Does the segment carry an explicit quantity marker whose digits
denote zero? -/
def segHasZeroQty (part : Str) : Bool :=
  match qtyPre part with
  | some (ds, _) => natOfDigits ds == 0
  | none =>
    match qtySuf part with
    | some (_, ds) => natOfDigits ds == 0
    | none => false

/-- A supplier catalog component (importAllData.py lines 115-122). -/
structure Component where
  internal_sku : Str
  description : Str
  brand : Str
  cost_ex_vat_pence : Int
  is_active : Bool
  source_file : Str
  deriving DecidableEq, Repr

/-- An Amazon listing row (importAllData.py lines 161-168). -/
structure ListingRow where
  item_name : Str
  seller_sku : Str
  asin : Option Str
  price_pence : Int
  fingerprint : Option Str
  fingerprint_hash : Option Str
  deriving DecidableEq, Repr

/-- Construction of a listing row by load_amazon_listings (lines 161-168):
the fingerprint fields are computed from the item name. -/
def mkListingRow (digest : Str → Str) (item_name seller_sku : Str)
    (asin : Option Str) (price_pence : Int) : ListingRow :=
  { item_name := item_name
    seller_sku := seller_sku
    asin := asin
    price_pence := price_pence
    fingerprint := fingerprint_title (some item_name)
    fingerprint_hash := hash_fingerprint digest (fingerprint_title (some item_name)) }

/-- Catalog deduplication by uppercased internal_sku, first occurrence
wins (importAllData.py lines 183-191, inside create_component_sql). -/
def dedupComponentsAux (seen : List Str) : List Component → List Component
  | [] => []
  | comp :: rest =>
    if upperStr comp.internal_sku ∈ seen then dedupComponentsAux seen rest
    else comp :: dedupComponentsAux (upperStr comp.internal_sku :: seen) rest

/-- The deduplicated catalog produced while generating component SQL. -/
def dedup_components (comps : List Component) : List Component :=
  dedupComponentsAux [] comps

/-- One linear scan for an exact uppercased-SKU match, returning the raw
internal_sku of the first hit. -/
def findExact (target : Str) (comps : List Component) : Option Str :=
  (comps.find? (fun comp => upperStr comp.internal_sku == target)).map
    (fun comp => comp.internal_sku)

/-- One iteration of the prefix loop (lines 228-240): if the pattern does
not start with the prefix, look up prefix ++ pattern; if it does, look up
the pattern with the prefix removed. -/
def pfxStep (pu : Str) (comps : List Component) (pfx : Str) : Option Str :=
  match (if pfx.isPrefixOf pu then none else findExact (pfx ++ pu) comps) with
  | some s => some s
  | none => if pfx.isPrefixOf pu then findExact (pu.drop pfx.length) comps else none

/-- The prefix loop over the fixed brand list, first hit wins. -/
def tryPfxList (pu : Str) (comps : List Component) : List Str → Option Str
  | [] => none
  | pfx :: rest =>
    match pfxStep pu comps pfx with
    | some s => some s
    | none => tryPfxList pu comps rest

/-- The fixed ordered brand list of the matcher (line 227). -/
def brandPfxs : List Str := ["MAK".toList, "DEW".toList, "MAKITA".toList, "DEWALT".toList]

/-- match_component_to_import (importAllData.py lines 211-242): exact
match, then containment in either direction, then the prefix loop. -/
def match_component_to_import (component_pattern : Str) (all_components : List Component) :
    Option Str :=
  let pattern_upper := upperStr component_pattern
  match all_components.find? (fun comp => upperStr comp.internal_sku == pattern_upper) with
  | some comp => some comp.internal_sku
  | none =>
    match all_components.find? (fun comp =>
        isSubstr pattern_upper (upperStr comp.internal_sku) ||
        isSubstr (upperStr comp.internal_sku) pattern_upper) with
    | some comp => some comp.internal_sku
    | none => tryPfxList pattern_upper all_components brandPfxs

/-- Exact-tier predicate of the matcher. -/
def exactHit (pattern : Str) (comp : Component) : Bool :=
  upperStr comp.internal_sku == upperStr pattern

/-- Containment-tier predicate of the matcher (substring in either
direction). -/
def containHit (pattern : Str) (comp : Component) : Bool :=
  isSubstr (upperStr pattern) (upperStr comp.internal_sku) ||
  isSubstr (upperStr comp.internal_sku) (upperStr pattern)

/-- The ordered list of exact-lookup targets tried by the prefix tier:
for each brand prefix, the add-prefix test precedes the strip-prefix
test (they are mutually exclusive for one pattern). -/
def testPatternsFor (pu : Str) (pfxs : List Str) : List Str :=
  pfxs.flatMap (fun pfx =>
    (if pfx.isPrefixOf pu then [] else [pfx ++ pu]) ++
    (if pfx.isPrefixOf pu then [pu.drop pfx.length] else []))

/-- The prefix-tier lookup targets for a pattern, in attempted order. -/
def testPatterns (pu : Str) : List Str := testPatternsFor pu brandPfxs

/-- First non-none element of an option list. -/
def firstSome : List (Option Str) → Option Str
  | [] => none
  | o :: os =>
    match o with
    | some s => some s
    | none => firstSome os

/-- BOM output row (lines 284-288). -/
structure BomRow where
  bundle_sku : Str
  description : Str
  is_active : Bool
  deriving DecidableEq, Repr

/-- BOM component link output row (lines 291-296). -/
structure BomComponentRow where
  bom_sku : Str
  component_sku : Str
  qty_required : Nat
  deriving DecidableEq, Repr

/-- Listing memory output row (lines 305-313). -/
structure ListingMemoryRow where
  asin : Option Str
  sku : Str
  title_fingerprint : Option Str
  title_fingerprint_hash : Option Str
  bom_sku : Str
  resolution_source : Str
  deriving DecidableEq, Repr

/-- Unmatched report row (lines 298-303). -/
structure UnmatchedRow where
  seller_sku : Str
  item_name : Str
  asin : Option Str
  deriving DecidableEq, Repr

/-- The four collections returned by create_boms_and_listings. -/
structure ResolveResult where
  boms : List BomRow
  bom_components : List BomComponentRow
  listing_memory : List ListingMemoryRow
  unmatched : List UnmatchedRow
  deriving DecidableEq, Repr

/-- SKU-decomposition matching phase for one listing (lines 260-266):
parse the seller SKU and keep the quantities of the references the
matcher resolves; a falsy (missing or empty) match result is skipped. -/
def skuPhaseCore (comps : List Component) (seller_sku : Str) : List (Str × Nat) :=
  (parse_compound_sku (some seller_sku)).filterMap (fun pq =>
    match match_component_to_import pq.1 comps with
    | some s => if s = [] then none else some (s, pq.2)
    | none => none)

/-- Title-overlap fallback scan (lines 270-278): first component with a
nonempty description, nonempty title, uppercased description longer than
10 characters, and containment of title and description in either
direction. -/
def fallbackFind (comps : List Component) (item_name : Str) : Option Component :=
  comps.find? (fun comp =>
    decide (comp.description ≠ []) && decide (item_name ≠ []) &&
    decide (10 < (upperStr comp.description).length) &&
    (isSubstr (upperStr comp.description) (upperStr item_name) ||
     isSubstr (upperStr item_name) (upperStr comp.description)))

/-- The matched component list for one listing (lines 260-278): the SKU
phase, and if it produced nothing, the single fallback hit with
quantity 1. -/
def matchedComponentsCore (comps : List Component) (seller_sku item_name : Str) :
    List (Str × Nat) :=
  let m := skuPhaseCore comps seller_sku
  if m = [] then
    match fallbackFind comps item_name with
    | some comp => [(comp.internal_sku, 1)]
    | none => []
  else m

/-- Matched components of a listing row. -/
def matchedComponents (comps : List Component) (l : ListingRow) : List (Str × Nat) :=
  matchedComponentsCore comps l.seller_sku l.item_name

/-- The BOM row emitted for a listing (lines 284-288). -/
def mkBom (l : ListingRow) : BomRow :=
  { bundle_sku := l.seller_sku, description := l.item_name.take 500, is_active := true }

/-- The BOM component links emitted for a listing (lines 291-296). -/
def mkLinks (comps : List Component) (l : ListingRow) : List BomComponentRow :=
  (matchedComponents comps l).map (fun m =>
    { bom_sku := l.seller_sku, component_sku := m.1, qty_required := m.2 })

/-- The listing memory row emitted for a listing (lines 305-313). -/
def mkMemory (l : ListingRow) : ListingMemoryRow :=
  { asin := l.asin
    sku := l.seller_sku
    title_fingerprint := l.fingerprint
    title_fingerprint_hash := l.fingerprint_hash
    bom_sku := l.seller_sku
    resolution_source := "IMPORT".toList }

/-- The unmatched report row for a listing (lines 298-303). -/
def mkUnmatchedRow (l : ListingRow) : UnmatchedRow :=
  { seller_sku := l.seller_sku, item_name := l.item_name, asin := l.asin }

/-- One loop iteration of create_boms_and_listings (lines 254-313). -/
def resolveStep (comps : List Component) (acc : ResolveResult) (l : ListingRow) :
    ResolveResult :=
  { boms := acc.boms ++ [mkBom l]
    bom_components := acc.bom_components ++ mkLinks comps l
    listing_memory := acc.listing_memory ++ [mkMemory l]
    unmatched := acc.unmatched ++
      (if matchedComponents comps l = [] then [mkUnmatchedRow l] else []) }

/-- create_boms_and_listings (importAllData.py lines 244-315). Note that
main passes the full, non-deduplicated component list to this function. -/
def create_boms_and_listings (listings : List ListingRow) (all_components : List Component) :
    ResolveResult :=
  listings.foldl (resolveStep all_components) ⟨[], [], [], []⟩

/-- Extend the word list of the tail by an alphanumeric head character:
either prepend it to the first word (when the tail starts inside the same
run) or open a fresh word. -/
def wordsCons (c : Char) (cs : Str) (rest : List Str) : List Str :=
  match cs with
  | [] => [[c]]
  | d :: _ =>
    if isLowerAlnum d then
      match rest with
      | w :: ws => (c :: w) :: ws
      | [] => [[c]]
    else [c] :: rest

/-- Words of the fingerprint pipeline: maximal runs of [a-z0-9]
characters, in order. -/
def wordsLA : Str → List Str
  | [] => []
  | c :: cs => if isLowerAlnum c then wordsCons c cs (wordsLA cs) else wordsLA cs

/-- Join words with single spaces. -/
def joinWords : List Str → Str
  | [] => []
  | [w] => w
  | w :: ws => w ++ ' ' :: joinWords ws

/-- The alphanumeric word sequence of a title: maximal [a-z0-9] runs of
the lowercased text. Two titles differing only in casing, punctuation or
spacing have the same word sequence. -/
def titleWords (t : Str) : List Str := wordsLA (t.map Char.toLower)

/-- The fallback-acceptance condition as the specification phrases it:
description longer than 10 characters and containment of uppercased
description and uppercased title in either direction. Modelled from the
spec wording for comparison with the code's fallbackFind. -/
def fallbackPredClaim (item_name : Str) (comp : Component) : Bool :=
  decide (10 < (upperStr comp.description).length) &&
  (isSubstr (upperStr comp.description) (upperStr item_name) ||
   isSubstr (upperStr item_name) (upperStr comp.description))

/-- Example catalog entries and listing used by concrete instances. -/
def compPlainA : Component :=
  { internal_sku := "ABC".toList, description := [], brand := [],
    cost_ex_vat_pence := 100, is_active := true, source_file := [] }

/-- A duplicate of compPlainA up to SKU case, carrying a different,
longer description. -/
def compDupB : Component :=
  { internal_sku := "abc".toList, description := "POWER DRILL KIT 18V".toList,
    brand := [], cost_ex_vat_pence := 999, is_active := true, source_file := [] }

/-- A listing whose SKU matches nothing and whose title overlaps
compDupB's description. -/
def listingZZZ : ListingRow :=
  { item_name := "POWER DRILL KIT 18V COMBO".toList, seller_sku := "ZZZ9".toList,
    asin := none, price_pence := 0, fingerprint := none, fingerprint_hash := none }

/- Character-level facts about the ASCII case maps and character
classes. -/

theorem char_le_iff (a b : Char) : a ≤ b ↔ a.toNat ≤ b.toNat := by
  rw [Char.le_def, UInt32.le_def, BitVec.le_def]
  exact Iff.rfl

theorem char_eq_iff (a b : Char) : a = b ↔ a.toNat = b.toNat := by
  constructor
  · intro h
    exact congrArg Char.toNat h
  · intro h
    exact Char.ext (UInt32.toNat.inj h)

theorem toNat_ofNat_valid (n : Nat) (h : n.isValidChar) : (Char.ofNat n).toNat = n := by
  rw [Char.ofNat, dif_pos h]
  simp [Char.ofNatAux, Char.toNat, UInt32.toNat]

theorem isLowerAlnum_iff (c : Char) :
    isLowerAlnum c = true ↔
      (97 ≤ c.toNat ∧ c.toNat ≤ 122) ∨ (48 ≤ c.toNat ∧ c.toNat ≤ 57) := by
  simp [isLowerAlnum, char_le_iff]

theorem isAsciiAlnum_iff (c : Char) :
    isAsciiAlnum c = true ↔
      (97 ≤ c.toNat ∧ c.toNat ≤ 122) ∨ (65 ≤ c.toNat ∧ c.toNat ≤ 90) ∨
      (48 ≤ c.toNat ∧ c.toNat ≤ 57) := by
  simp [isAsciiAlnum, char_le_iff]
  tauto

theorem pySpace_toNat {c : Char} (h : isPySpaceB c = true) :
    c.toNat = 32 ∨ c.toNat = 9 ∨ c.toNat = 10 ∨ c.toNat = 13 ∨
    c.toNat = 11 ∨ c.toNat = 12 := by
  simp only [isPySpaceB, Bool.or_eq_true, beq_iff_eq, or_assoc] at h
  rcases h with h | h | h | h | h | h <;> subst h <;> decide

theorem la_not_space {c : Char} (h : isLowerAlnum c = true) : isPySpaceB c = false := by
  rw [isLowerAlnum_iff] at h
  by_contra hsp
  rw [Bool.not_eq_false] at hsp
  have := pySpace_toNat hsp
  omega

theorem toUpper_toUpper (c : Char) : Char.toUpper (Char.toUpper c) = Char.toUpper c := by
  unfold Char.toUpper
  by_cases h : c.toNat >= 97 ∧ c.toNat <= 122
  · have hv : (c.toNat - 32).isValidChar := by
      unfold Nat.isValidChar
      left
      omega
    have ht : (Char.ofNat (c.toNat - 32)).toNat = c.toNat - 32 := toNat_ofNat_valid _ hv
    simp only [if_pos h, ht]
    rw [if_neg]
    omega
  · simp only [if_neg h]

theorem pySpace_toUpper (c : Char) : isPySpaceB (Char.toUpper c) = isPySpaceB c := by
  unfold Char.toUpper
  by_cases h : c.toNat >= 97 ∧ c.toNat <= 122
  · have hv : (c.toNat - 32).isValidChar := by
      unfold Nat.isValidChar
      left
      omega
    have ht : (Char.ofNat (c.toNat - 32)).toNat = c.toNat - 32 := toNat_ofNat_valid _ hv
    simp only [if_pos h]
    have h1 : isPySpaceB (Char.ofNat (c.toNat - 32)) = false := by
      by_contra hsp
      rw [Bool.not_eq_false] at hsp
      have := pySpace_toNat hsp
      rw [ht] at this
      omega
    have h2 : isPySpaceB c = false := by
      by_contra hsp
      rw [Bool.not_eq_false] at hsp
      have := pySpace_toNat hsp
      omega
    rw [h1, h2]
  · simp only [if_neg h]

theorem toLower_fix_of_la {c : Char} (h : isLowerAlnum c = true) : Char.toLower c = c := by
  rw [isLowerAlnum_iff] at h
  unfold Char.toLower
  rw [if_neg]
  omega

theorem toLower_fix_of_nonalnum {c : Char} (h : isAsciiAlnum c = false) :
    Char.toLower c = c := by
  unfold Char.toLower
  rw [if_neg]
  intro hc
  have : isAsciiAlnum c = true := by
    rw [isAsciiAlnum_iff]
    omega
  rw [this] at h
  exact Bool.noConfusion h

theorem la_false_of_nonalnum {c : Char} (h : isAsciiAlnum c = false) :
    isLowerAlnum c = false := by
  by_contra hla
  rw [Bool.not_eq_false, isLowerAlnum_iff] at hla
  have : isAsciiAlnum c = true := by
    rw [isAsciiAlnum_iff]
    omega
  rw [this] at h
  exact Bool.noConfusion h

/- Generic list lemmas used throughout. -/

theorem dropWhile_head_false {α : Type} {p : α → Bool} :
    ∀ {l : List α} {c : α} {cs : List α}, List.dropWhile p l = c :: cs → p c = false := by
  intro l
  induction l with
  | nil => intro c cs h; simp [List.dropWhile] at h
  | cons a as ih =>
    intro c cs h
    by_cases hp : p a = true
    · rw [List.dropWhile_cons_of_pos hp] at h
      exact ih h
    · rw [List.dropWhile_cons_of_neg hp] at h
      cases h
      simpa using hp

theorem dropWhile_idem {α : Type} (p : α → Bool) (l : List α) :
    List.dropWhile p (List.dropWhile p l) = List.dropWhile p l := by
  cases h : List.dropWhile p l with
  | nil => rfl
  | cons c cs =>
    rw [List.dropWhile_cons_of_neg]
    simpa using dropWhile_head_false h

theorem dropWhile_append_nil {α : Type} {p : α → Bool} {as : List α}
    (h : List.dropWhile p as = []) (bs : List α) :
    List.dropWhile p (as ++ bs) = List.dropWhile p bs := by
  induction as with
  | nil => rfl
  | cons a as ih =>
    by_cases hp : p a = true
    · rw [List.dropWhile_cons_of_pos hp] at h
      rw [List.cons_append, List.dropWhile_cons_of_pos hp]
      exact ih h
    · rw [List.dropWhile_cons_of_neg hp] at h
      exact absurd h (by simp)

theorem dropWhile_append_cons {α : Type} {p : α → Bool} {as : List α} {c : α} {cs : List α}
    (h : List.dropWhile p as = c :: cs) (bs : List α) :
    List.dropWhile p (as ++ bs) = c :: (cs ++ bs) := by
  induction as with
  | nil => simp [List.dropWhile] at h
  | cons a as ih =>
    by_cases hp : p a = true
    · rw [List.dropWhile_cons_of_pos hp] at h
      rw [List.cons_append, List.dropWhile_cons_of_pos hp]
      exact ih h
    · rw [List.dropWhile_cons_of_neg hp] at h
      cases h
      rw [List.cons_append, List.dropWhile_cons_of_neg hp]

theorem takeWhile_append_of_all {α : Type} {p : α → Bool} {xs : List α}
    (h : ∀ a ∈ xs, p a = true) {b : α} (hb : p b = false) (r : List α) :
    List.takeWhile p (xs ++ b :: r) = xs := by
  have hb' : ¬ p b = true := by simp [hb]
  induction xs with
  | nil => rw [List.nil_append, List.takeWhile_cons_of_neg hb']
  | cons a as ih =>
    rw [List.cons_append, List.takeWhile_cons_of_pos (h a (by simp))]
    rw [ih (fun a ha => h a (by simp [ha]))]

theorem dropWhile_append_of_all {α : Type} {p : α → Bool} {xs : List α}
    (h : ∀ a ∈ xs, p a = true) {b : α} (hb : p b = false) (r : List α) :
    List.dropWhile p (xs ++ b :: r) = b :: r := by
  have hb' : ¬ p b = true := by simp [hb]
  induction xs with
  | nil => rw [List.nil_append, List.dropWhile_cons_of_neg hb']
  | cons a as ih =>
    rw [List.cons_append, List.dropWhile_cons_of_pos (h a (by simp))]
    exact ih (fun a ha => h a (by simp [ha]))

theorem takeWhile_eq_self_of_all {α : Type} {p : α → Bool} {xs : List α}
    (h : ∀ a ∈ xs, p a = true) : List.takeWhile p xs = xs := by
  induction xs with
  | nil => rfl
  | cons a as ih =>
    rw [List.takeWhile_cons_of_pos (h a (by simp))]
    rw [ih (fun a ha => h a (by simp [ha]))]

theorem dropWhile_eq_nil_of_all {α : Type} {p : α → Bool} {xs : List α}
    (h : ∀ a ∈ xs, p a = true) : List.dropWhile p xs = [] :=
  List.dropWhile_eq_nil_iff.mpr (fun x hx => by simp [h x hx])

theorem find?_congr_my {α : Type} {p q : α → Bool} :
    ∀ {l : List α}, (∀ a ∈ l, p a = q a) → List.find? p l = List.find? q l := by
  intro l
  induction l with
  | nil => intro _; rfl
  | cons a as ih =>
    intro h
    have ha := h a (by simp)
    by_cases hp : p a = true
    · rw [List.find?_cons_of_pos _ hp, List.find?_cons_of_pos _ (ha ▸ hp)]
    · have hq : ¬ q a = true := by rw [← ha]; exact hp
      rw [List.find?_cons_of_neg _ hp, List.find?_cons_of_neg _ hq]
      exact ih (fun a ha => h a (by simp [ha]))

theorem find?_spec {α : Type} (p : α → Bool) (l : List α) :
    (List.find? p l = none ∧ ∀ x ∈ l, p x = false) ∨
    ∃ i, ∃ h : i < l.length, p (l.get ⟨i, h⟩) = true ∧
      (∀ j (hj : j < i), p (l.get ⟨j, Nat.lt_trans hj h⟩) = false) ∧
      List.find? p l = some (l.get ⟨i, h⟩) := by
  induction l with
  | nil => exact Or.inl ⟨rfl, by simp⟩
  | cons a as ih =>
    by_cases hp : p a = true
    · refine Or.inr ⟨0, by simp, hp, ?_, ?_⟩
      · intro j hj
        exact absurd hj (Nat.not_lt_zero j)
      · rw [List.find?_cons_of_pos _ hp]
        rfl
    · have hpf : p a = false := by simpa using hp
      rcases ih with ⟨hn, hall⟩ | ⟨i, hi, hpi, hearly, hfind⟩
      · refine Or.inl ⟨?_, ?_⟩
        · rw [List.find?_cons_of_neg _ hp]
          exact hn
        · intro x hx
          rcases List.mem_cons.mp hx with rfl | hx
          · exact hpf
          · exact hall x hx
      · refine Or.inr ⟨i + 1, by simpa using Nat.succ_lt_succ hi, ?_, ?_, ?_⟩
        · rw [List.get_cons_succ]
          exact hpi
        · intro j hj
          cases j with
          | zero => exact hpf
          | succ j =>
            rw [List.get_cons_succ]
            exact hearly j (Nat.lt_of_succ_lt_succ hj)
        · rw [List.find?_cons_of_neg _ hp, hfind, List.get_cons_succ]

theorem find?_at_index {α : Type} (p : α → Bool) (l : List α) {i : Nat}
    (h : i < l.length) (hp : p (l.get ⟨i, h⟩) = true)
    (hearly : ∀ j (hj : j < i), p (l.get ⟨j, Nat.lt_trans hj h⟩) = false) :
    List.find? p l = some (l.get ⟨i, h⟩) := by
  rcases find?_spec p l with ⟨_, hall⟩ | ⟨i', hi', hpi', hearly', hfind⟩
  · have hf := hall _ (l.get_mem i h)
    rw [hp] at hf
    exact Bool.noConfusion hf
  · have hii : i' = i := by
      by_contra hne
      rcases Nat.lt_or_ge i' i with hlt | hge
      · have hf : p (l.get ⟨i', hi'⟩) = false := hearly i' hlt
        rw [hpi'] at hf
        exact Bool.noConfusion hf
      · have hlt : i < i' := Nat.lt_of_le_of_ne hge (fun he => hne he.symm)
        have hf : p (l.get ⟨i, h⟩) = false := hearly' i hlt
        rw [hp] at hf
        exact Bool.noConfusion hf
    subst hii
    exact hfind

theorem firstSome_eq_none {l : List (Option Str)} (h : ∀ o ∈ l, o = none) :
    firstSome l = none := by
  induction l with
  | nil => rfl
  | cons o os ih =>
    have := h o (by simp)
    subst this
    exact ih (fun o ho => h o (by simp [ho]))

/- Lemmas about stripWS, dropTrailingWS, collapseWS and wordsLA. -/

theorem dtws_nil : dropTrailingWS [] = [] := rfl

theorem dtws_dtws (l : Str) : dropTrailingWS (dropTrailingWS l) = dropTrailingWS l := by
  unfold dropTrailingWS
  rw [List.reverse_reverse, dropWhile_idem]

theorem dtws_leading (l : Str) : dropTrailingWS l <+: l := by
  have h : List.dropWhile isPySpaceB l.reverse <:+ l.reverse := List.dropWhile_suffix _
  have := List.reverse_prefix.mpr h
  rwa [List.reverse_reverse] at this

theorem dtws_append (xs ys : Str) :
    dropTrailingWS (xs ++ ys) =
      if dropTrailingWS ys = [] then dropTrailingWS xs else xs ++ dropTrailingWS ys := by
  unfold dropTrailingWS
  rw [List.reverse_append]
  cases h : List.dropWhile isPySpaceB ys.reverse with
  | nil =>
    rw [dropWhile_append_nil h, if_pos (by simp [h])]
  | cons c cs =>
    rw [dropWhile_append_cons h, if_neg (by simp [h])]
    simp [List.reverse_cons, List.reverse_append, List.append_assoc]

theorem dtws_of_all_nonspace {l : Str} (h : ∀ c ∈ l, isPySpaceB c = false) :
    dropTrailingWS l = l := by
  unfold dropTrailingWS
  cases hr : l.reverse with
  | nil =>
    rw [List.dropWhile_nil]
    rw [← hr, List.reverse_reverse]
  | cons c cs =>
    have hc : c ∈ l := List.mem_reverse.mp (hr ▸ List.mem_cons_self c cs)
    rw [List.dropWhile_cons_of_neg (by simp [h c hc])]
    rw [← hr, List.reverse_reverse]

theorem strip_cons_space {c : Char} {l : Str} (h : isPySpaceB c = true) :
    stripWS (c :: l) = stripWS l := by
  unfold stripWS
  rw [List.dropWhile_cons_of_pos h]

theorem strip_cons_nonspace {c : Char} {l : Str} (h : isPySpaceB c = false) :
    stripWS (c :: l) = dropTrailingWS (c :: l) := by
  unfold stripWS
  rw [List.dropWhile_cons_of_neg (by simp [h])]

theorem strip_strip (l : Str) : stripWS (stripWS l) = stripWS l := by
  unfold stripWS
  have hdd : List.dropWhile isPySpaceB (dropTrailingWS (List.dropWhile isPySpaceB l)) =
      dropTrailingWS (List.dropWhile isPySpaceB l) := by
    cases hm : dropTrailingWS (List.dropWhile isPySpaceB l) with
    | nil => rfl
    | cons d ds =>
      rcases dtws_leading (List.dropWhile isPySpaceB l) with ⟨t, ht⟩
      rw [hm] at ht
      have hd : isPySpaceB d = false := dropWhile_head_false ht.symm
      rw [List.dropWhile_cons_of_neg (by simp [hd])]
  rw [hdd, dtws_dtws]

theorem strip_map {f : Char → Char} (hf : ∀ c, isPySpaceB (f c) = isPySpaceB c) (l : Str) :
    stripWS (l.map f) = (stripWS l).map f := by
  have hcomp : (isPySpaceB ∘ f) = isPySpaceB := funext hf
  unfold stripWS dropTrailingWS
  rw [List.dropWhile_map, hcomp, ← List.map_reverse, List.dropWhile_map, hcomp,
    List.map_reverse]

theorem collapseWS_nil : collapseWS [] = [] := rfl

theorem collapseAux_true_eq (cs : Str) :
    collapseAux true cs = collapseAux false (cs.dropWhile isPySpaceB) := by
  induction cs with
  | nil => rfl
  | cons c cs ih =>
    by_cases hc : isPySpaceB c = true
    · rw [List.dropWhile_cons_of_pos hc]
      rw [show collapseAux true (c :: cs) = collapseAux true cs by
        rw [collapseAux, if_pos hc, if_pos rfl]]
      exact ih
    · rw [List.dropWhile_cons_of_neg hc]
      have hcf : isPySpaceB c = false := by simpa using hc
      rw [show collapseAux true (c :: cs) = c :: collapseAux false cs by
        rw [collapseAux, if_neg (by simp [hcf])]]
      rw [show collapseAux false (c :: cs) = c :: collapseAux false cs by
        rw [collapseAux, if_neg (by simp [hcf])]]

theorem collapseWS_cons_space {c : Char} {cs : Str} (h : isPySpaceB c = true) :
    collapseWS (c :: cs) = ' ' :: collapseWS (cs.dropWhile isPySpaceB) := by
  show collapseAux false (c :: cs) = ' ' :: collapseAux false (cs.dropWhile isPySpaceB)
  rw [collapseAux, if_pos h, if_neg (by simp), collapseAux_true_eq]

theorem collapseWS_cons_nonspace {c : Char} {cs : Str} (h : isPySpaceB c = false) :
    collapseWS (c :: cs) = c :: collapseWS cs := by
  show collapseAux false (c :: cs) = c :: collapseAux false cs
  rw [collapseAux, if_neg (by simp [h])]

theorem collapseWS_append_nonspace {xs : Str} (h : ∀ c ∈ xs, isPySpaceB c = false)
    (r : Str) : collapseWS (xs ++ r) = xs ++ collapseWS r := by
  induction xs with
  | nil => rfl
  | cons a as ih =>
    rw [List.cons_append, collapseWS_cons_nonspace (h a (by simp))]
    rw [ih (fun c hc => h c (by simp [hc]))]
    rfl

theorem wordsLA_nil : wordsLA [] = [] := rfl

theorem wordsLA_cons_notla {c : Char} {cs : Str} (h : isLowerAlnum c = false) :
    wordsLA (c :: cs) = wordsLA cs := by
  rw [wordsLA, if_neg (by simp [h])]

theorem wordsLA_cons_la {c : Char} {cs : Str} (h : isLowerAlnum c = true) :
    wordsLA (c :: cs) =
      (c :: cs.takeWhile isLowerAlnum) :: wordsLA (cs.dropWhile isLowerAlnum) := by
  induction cs generalizing c with
  | nil =>
    rw [wordsLA, if_pos h]
    rfl
  | cons d cs' ih =>
    by_cases hd : isLowerAlnum d = true
    · rw [wordsLA, if_pos h, ih hd]
      rw [List.takeWhile_cons_of_pos hd, List.dropWhile_cons_of_pos hd]
      rw [wordsCons.eq_def]
      simp only [if_pos hd]
    · have hdf : isLowerAlnum d = false := by simpa using hd
      rw [wordsLA, if_pos h]
      rw [List.takeWhile_cons_of_neg (by simp [hdf]),
        List.dropWhile_cons_of_neg (by simp [hdf])]
      rw [wordsCons.eq_def]
      simp only [if_neg (by simp [hdf] : ¬ isLowerAlnum d = true)]

theorem space_not_la {c : Char} (h : isPySpaceB c = true) : isLowerAlnum c = false := by
  by_contra hla
  rw [Bool.not_eq_false] at hla
  rw [la_not_space hla] at h
  exact Bool.noConfusion h

/- The word-structure characterization of the fingerprint pipeline. -/

theorem joinWords_nil : joinWords [] = [] := rfl

theorem joinWords_single (w : Str) : joinWords [w] = w := rfl

theorem joinWords_cons2 (w x : Str) (ws : List Str) :
    joinWords (w :: x :: ws) = w ++ ' ' :: joinWords (x :: ws) := rfl

theorem wordsLA_all_la_aux :
    ∀ (n : Nat) (l : Str), l.length ≤ n →
      ∀ w ∈ wordsLA l, w ≠ [] ∧ ∀ c ∈ w, isLowerAlnum c = true := by
  intro n
  induction n with
  | zero =>
    intro l hl w hw
    have : l = [] := List.length_eq_zero.mp (Nat.le_zero.mp hl)
    subst this
    rw [wordsLA_nil] at hw
    exact absurd hw (List.not_mem_nil w)
  | succ n ih =>
    intro l hl w hw
    cases l with
    | nil =>
      rw [wordsLA_nil] at hw
      exact absurd hw (List.not_mem_nil w)
    | cons c cs =>
      have hcs : cs.length ≤ n := by
        simp only [List.length_cons] at hl
        omega
      by_cases hc : isLowerAlnum c = true
      · rw [wordsLA_cons_la hc] at hw
        rcases List.mem_cons.mp hw with rfl | hw
        · refine ⟨by simp, ?_⟩
          intro d hd
          rcases List.mem_cons.mp hd with rfl | hd
          · exact hc
          · exact List.mem_takeWhile_imp hd
        · have hlen : (cs.dropWhile isLowerAlnum).length ≤ n :=
            Nat.le_trans (List.dropWhile_sublist isLowerAlnum).length_le hcs
          exact ih _ hlen w hw
      · rw [wordsLA_cons_notla (by simpa using hc)] at hw
        exact ih cs hcs w hw

theorem wordsLA_all_la (l : Str) :
    ∀ w ∈ wordsLA l, w ≠ [] ∧ ∀ c ∈ w, isLowerAlnum c = true :=
  wordsLA_all_la_aux l.length l Nat.le.refl

theorem wordsLA_dropWhile_space (l : Str) :
    wordsLA (l.dropWhile isPySpaceB) = wordsLA l := by
  induction l with
  | nil => rfl
  | cons c cs ih =>
    by_cases hc : isPySpaceB c = true
    · rw [List.dropWhile_cons_of_pos hc, ih, wordsLA_cons_notla (space_not_la hc)]
    · rw [List.dropWhile_cons_of_neg hc]

theorem collapse_dropWhile_shape (l : Str) :
    collapseWS (l.dropWhile isPySpaceB) = [] ∨
    ∃ e es, collapseWS (l.dropWhile isPySpaceB) = e :: es ∧ isPySpaceB e = false := by
  cases hd : List.dropWhile isPySpaceB l with
  | nil =>
    left
    rw [collapseWS_nil]
  | cons e es =>
    have he : isPySpaceB e = false := dropWhile_head_false hd
    right
    exact ⟨e, collapseWS es, by rw [collapseWS_cons_nonspace he], he⟩

theorem dtws_eq_nil_all_space {z : Str} (h : dropTrailingWS z = []) :
    ∀ c ∈ z, isPySpaceB c = true := by
  unfold dropTrailingWS at h
  rw [List.reverse_eq_nil_iff] at h
  intro c hc
  exact List.dropWhile_eq_nil_iff.mp h c (List.mem_reverse.mpr hc)

theorem strip_collapse_eq_aux :
    ∀ (n : Nat) (m : Str), m.length ≤ n →
      (∀ x ∈ m, isLowerAlnum x = true ∨ isPySpaceB x = true) →
      stripWS (collapseWS m) = joinWords (wordsLA m) := by
  intro n
  induction n with
  | zero =>
    intro m hl _
    have : m = [] := List.length_eq_zero.mp (Nat.le_zero.mp hl)
    subst this
    rw [collapseWS_nil, wordsLA_nil, joinWords_nil]
    rfl
  | succ n ih =>
    intro m hl hm
    cases m with
    | nil =>
      rw [collapseWS_nil, wordsLA_nil, joinWords_nil]
      rfl
    | cons c cs =>
      have hcs : cs.length ≤ n := by
        simp only [List.length_cons] at hl
        omega
      by_cases hc : isLowerAlnum c = true
      · -- the head starts a word
        have hcns : isPySpaceB c = false := la_not_space hc
        have htw_la : ∀ a ∈ cs.takeWhile isLowerAlnum, isLowerAlnum a = true :=
          fun a ha => List.mem_takeWhile_imp ha
        have htw_ns : ∀ a ∈ cs.takeWhile isLowerAlnum, isPySpaceB a = false :=
          fun a ha => la_not_space (htw_la a ha)
        have hccs : collapseWS cs =
            cs.takeWhile isLowerAlnum ++ collapseWS (cs.dropWhile isLowerAlnum) := by
          conv_lhs => rw [← List.takeWhile_append_dropWhile isLowerAlnum cs]
          exact collapseWS_append_nonspace htw_ns _
        rw [collapseWS_cons_nonspace hcns, strip_cons_nonspace hcns,
          wordsLA_cons_la hc, hccs]
        cases hdw : List.dropWhile isLowerAlnum cs with
        | nil =>
          rw [collapseWS_nil, List.append_nil, wordsLA_nil, joinWords_single]
          exact dtws_of_all_nonspace (by
            intro x hx
            rcases List.mem_cons.mp hx with rfl | hx
            · exact hcns
            · exact htw_ns x hx)
        | cons d dw2 =>
          have hd_notla : isLowerAlnum d = false := dropWhile_head_false hdw
          have hd_mem : d ∈ cs := by
            have : d ∈ List.dropWhile isLowerAlnum cs := by
              rw [hdw]
              exact List.mem_cons_self d dw2
            exact (List.dropWhile_sublist isLowerAlnum).subset this
          have hd_sp : isPySpaceB d = true := by
            rcases hm d (List.mem_cons_of_mem c hd_mem) with h | h
            · rw [hd_notla] at h
              exact Bool.noConfusion h
            · exact h
          have hih : stripWS (collapseWS (d :: dw2)) = joinWords (wordsLA (d :: dw2)) := by
            apply ih (d :: dw2)
            · have hlen : (d :: dw2).length ≤ cs.length := by
                rw [← hdw]
                exact (List.dropWhile_sublist isLowerAlnum).length_le
              omega
            · intro x hx
              have hx2 : x ∈ cs := by
                have : x ∈ List.dropWhile isLowerAlnum cs := by
                  rw [hdw]
                  exact hx
                exact (List.dropWhile_sublist isLowerAlnum).subset this
              exact hm x (List.mem_cons_of_mem c hx2)
          rw [collapseWS_cons_space hd_sp] at hih
          rw [strip_cons_space (by decide)] at hih
          have hz := collapse_dropWhile_shape dw2
          have hzdrop : List.dropWhile isPySpaceB (collapseWS (List.dropWhile isPySpaceB dw2)) =
              collapseWS (List.dropWhile isPySpaceB dw2) := by
            rcases hz with hz | ⟨e, es, hz, he⟩
            · rw [hz]
              rfl
            · rw [hz, List.dropWhile_cons_of_neg (by simp [he])]
          have hihz : dropTrailingWS (collapseWS (List.dropWhile isPySpaceB dw2)) =
              joinWords (wordsLA (d :: dw2)) := by
            unfold stripWS at hih
            rw [hzdrop] at hih
            exact hih
          rw [collapseWS_cons_space hd_sp]
          cases hw : wordsLA (d :: dw2) with
          | nil =>
            rw [hw, joinWords_nil] at hihz
            have hzsp := dtws_eq_nil_all_space hihz
            have hznil : collapseWS (List.dropWhile isPySpaceB dw2) = [] := by
              rcases hz with hz | ⟨e, es, hz, he⟩
              · exact hz
              · have hesp := hzsp e (by rw [hz]; exact List.mem_cons_self e es)
                rw [he] at hesp
                exact Bool.noConfusion hesp
            rw [hznil, joinWords_single]
            rw [show c :: (cs.takeWhile isLowerAlnum ++ [' ']) =
              (c :: cs.takeWhile isLowerAlnum) ++ [' '] from rfl]
            rw [dtws_append, if_pos (by decide)]
            exact dtws_of_all_nonspace (by
              intro x hx
              rcases List.mem_cons.mp hx with rfl | hx
              · exact hcns
              · exact htw_ns x hx)
          | cons w ws =>
            have hwne : w ≠ [] := by
              have hmem : w ∈ wordsLA (d :: dw2) := by
                rw [hw]
                exact List.mem_cons_self w ws
              exact (wordsLA_all_la (d :: dw2) w hmem).1
            have hjne : joinWords (w :: ws) ≠ [] := by
              cases ws with
              | nil =>
                rw [joinWords_single]
                exact hwne
              | cons x xs =>
                rw [joinWords_cons2]
                intro hcontra
                rcases List.append_eq_nil.mp hcontra with ⟨_, h2⟩
                exact List.noConfusion h2
            rw [hw] at hihz
            have hdtzne : dropTrailingWS (collapseWS (List.dropWhile isPySpaceB dw2)) ≠ [] := by
              rw [hihz]
              exact hjne
            rw [joinWords_cons2]
            rw [show c :: (cs.takeWhile isLowerAlnum ++
              (' ' :: collapseWS (List.dropWhile isPySpaceB dw2))) =
              (c :: cs.takeWhile isLowerAlnum) ++
              (' ' :: collapseWS (List.dropWhile isPySpaceB dw2)) from rfl]
            have hmid : dropTrailingWS (' ' :: collapseWS (List.dropWhile isPySpaceB dw2)) =
                ' ' :: joinWords (w :: ws) := by
              rw [show (' ' :: collapseWS (List.dropWhile isPySpaceB dw2)) =
                [' '] ++ collapseWS (List.dropWhile isPySpaceB dw2) from rfl]
              rw [dtws_append, if_neg hdtzne, hihz]
              rfl
            rw [dtws_append, if_neg (by rw [hmid]; exact fun h => List.noConfusion h), hmid]
      · -- the head is whitespace
        have hcsp : isPySpaceB c = true := by
          rcases hm c (List.mem_cons_self c cs) with h | h
          · exact absurd h hc
          · exact h
        rw [collapseWS_cons_space hcsp, strip_cons_space (by decide),
          wordsLA_cons_notla (space_not_la hcsp)]
        have hih : stripWS (collapseWS (List.dropWhile isPySpaceB cs)) =
            joinWords (wordsLA (List.dropWhile isPySpaceB cs)) := by
          apply ih
          · exact Nat.le_trans (List.dropWhile_sublist isPySpaceB).length_le hcs
          · intro x hx
            have hx2 : x ∈ cs := (List.dropWhile_sublist isPySpaceB).subset hx
            exact hm x (List.mem_cons_of_mem c hx2)
        rw [hih, wordsLA_dropWhile_space]

theorem subNonAlnum_fix {c : Char} (h : isLowerAlnum c = true) : subNonAlnum c = c := by
  rw [subNonAlnum, if_pos h]

theorem subNonAlnum_la (c : Char) : isLowerAlnum (subNonAlnum c) = isLowerAlnum c := by
  by_cases h : isLowerAlnum c = true
  · rw [subNonAlnum_fix h]
  · have hf : isLowerAlnum c = false := by simpa using h
    rw [subNonAlnum, if_neg (by simp [hf])]
    by_cases hs : isPySpaceB c = true
    · rw [if_pos hs, hf]
    · rw [if_neg hs, hf]
      decide

theorem subNonAlnum_shape (c : Char) :
    isLowerAlnum (subNonAlnum c) = true ∨ isPySpaceB (subNonAlnum c) = true := by
  by_cases h : isLowerAlnum c = true
  · left
    rw [subNonAlnum_fix h]
    exact h
  · have hf : isLowerAlnum c = false := by simpa using h
    rw [subNonAlnum, if_neg (by simp [hf])]
    by_cases hs : isPySpaceB c = true
    · right
      rw [if_pos hs]
      exact hs
    · right
      rw [if_neg hs]
      decide

theorem wordsLA_map_aux :
    ∀ (n : Nat) (l : Str), l.length ≤ n → ∀ (f : Char → Char),
      (∀ c, isLowerAlnum c = true → f c = c) →
      (∀ c, isLowerAlnum (f c) = isLowerAlnum c) →
      wordsLA (l.map f) = wordsLA l := by
  intro n
  induction n with
  | zero =>
    intro l hl f _ _
    have : l = [] := List.length_eq_zero.mp (Nat.le_zero.mp hl)
    subst this
    rfl
  | succ n ih =>
    intro l hl f hfix hpres
    cases l with
    | nil => rfl
    | cons c cs =>
      have hcs : cs.length ≤ n := by
        simp only [List.length_cons] at hl
        omega
      have hcomp : (isLowerAlnum ∘ f) = isLowerAlnum := funext hpres
      by_cases hc : isLowerAlnum c = true
      · rw [List.map_cons, hfix c hc, wordsLA_cons_la hc, wordsLA_cons_la hc]
        have htake : List.takeWhile isLowerAlnum (cs.map f) = cs.takeWhile isLowerAlnum := by
          rw [List.takeWhile_map, hcomp]
          have hmc := List.map_congr_left
            (fun a ha => hfix a (List.mem_takeWhile_imp (l := cs) ha))
          simpa using hmc
        have hdrop : List.dropWhile isLowerAlnum (cs.map f) =
            (cs.dropWhile isLowerAlnum).map f := by
          rw [List.dropWhile_map, hcomp]
        rw [htake, hdrop]
        have hlen : (cs.dropWhile isLowerAlnum).length ≤ n :=
          Nat.le_trans (List.dropWhile_sublist isLowerAlnum).length_le hcs
        rw [ih _ hlen f hfix hpres]
      · have hcf : isLowerAlnum (f c) = false := by
          rw [hpres c]
          simpa using hc
        rw [List.map_cons, wordsLA_cons_notla hcf,
          wordsLA_cons_notla (by simpa using hc)]
        exact ih cs hcs f hfix hpres

theorem wordsLA_subNonAlnum (l : Str) : wordsLA (l.map subNonAlnum) = wordsLA l :=
  wordsLA_map_aux l.length l Nat.le.refl subNonAlnum
    (fun c h => subNonAlnum_fix h) subNonAlnum_la

/-- The fingerprint of a nonempty title is its lowercased alphanumeric
words joined by single spaces. -/
theorem fingerprint_characterization (t : Str) (h : t ≠ []) :
    fingerprint_title (some t) = some (joinWords (titleWords t)) := by
  show (if t = [] then none else
    some (stripWS (collapseWS ((t.map Char.toLower).map subNonAlnum)))) = _
  rw [if_neg h]
  congr 1
  rw [strip_collapse_eq_aux ((t.map Char.toLower).map subNonAlnum).length _ Nat.le.refl
    (fun x hx => by
      rcases List.mem_map.mp hx with ⟨y, _, rfl⟩
      exact subNonAlnum_shape y)]
  rw [wordsLA_subNonAlnum]
  rfl

theorem joinWords_chars :
    ∀ (ws : List Str), ∀ c ∈ joinWords ws, (∃ w ∈ ws, c ∈ w) ∨ c = ' ' := by
  intro ws
  induction ws with
  | nil =>
    intro c hc
    exact absurd hc (List.not_mem_nil c)
  | cons w ws ih =>
    intro c hc
    cases ws with
    | nil =>
      rw [joinWords_single] at hc
      exact Or.inl ⟨w, List.mem_cons_self w [], hc⟩
    | cons x xs =>
      rw [joinWords_cons2] at hc
      rcases List.mem_append.mp hc with hcw | hcr
      · exact Or.inl ⟨w, List.mem_cons_self w _, hcw⟩
      · rcases List.mem_cons.mp hcr with rfl | hcj
        · exact Or.inr rfl
        · rcases ih c hcj with ⟨w', hw', hcw'⟩ | hsp
          · exact Or.inl ⟨w', List.mem_cons_of_mem w hw', hcw'⟩
          · exact Or.inr hsp

theorem wordsLA_joinWords :
    ∀ (ws : List Str), (∀ w ∈ ws, w ≠ [] ∧ ∀ c ∈ w, isLowerAlnum c = true) →
      wordsLA (joinWords ws) = ws := by
  intro ws
  induction ws with
  | nil =>
    intro _
    rw [joinWords_nil, wordsLA_nil]
  | cons w ws ih =>
    intro h
    obtain ⟨hwne, hwla⟩ := h w (List.mem_cons_self w ws)
    cases w with
    | nil => exact absurd rfl hwne
    | cons c w' =>
      have hc : isLowerAlnum c = true := hwla c (List.mem_cons_self c w')
      have hw'la : ∀ a ∈ w', isLowerAlnum a = true :=
        fun a ha => hwla a (List.mem_cons_of_mem c ha)
      cases ws with
      | nil =>
        rw [joinWords_single, wordsLA_cons_la hc,
          takeWhile_eq_self_of_all hw'la, dropWhile_eq_nil_of_all hw'la,
          wordsLA_nil]
      | cons x xs =>
        rw [joinWords_cons2]
        rw [show (c :: w') ++ ' ' :: joinWords (x :: xs) =
          c :: (w' ++ ' ' :: joinWords (x :: xs)) from rfl]
        rw [wordsLA_cons_la hc]
        rw [takeWhile_append_of_all hw'la (by decide) _]
        rw [dropWhile_append_of_all hw'la (by decide) _]
        rw [wordsLA_cons_notla (by decide)]
        rw [ih (fun v hv => h v (List.mem_cons_of_mem (c :: w') hv))]

/- Parser claim theorems. -/

/-- C6: parseCompoundSku("MAKDJR186+2xBL1850+DC18RC(x3)") returns exactly
[("MAKDJR186",1), ("BL1850",2), ("DC18RC",3)] in order of appearance, and
the prefix quantity shape is checked before the suffix shape (a segment
matching both, such as "2xA(x3)", is decomposed by the prefix shape). -/
theorem parse_roundtrip_example :
    parse_compound_sku (some ("MAKDJR186+2xBL1850+DC18RC(x3)".toList)) =
      [("MAKDJR186".toList, 1), ("BL1850".toList, 2), ("DC18RC".toList, 3)] ∧
    parse_compound_sku (some ("2xA(x3)".toList)) = [("A(x3)".toList, 2)] := by
  constructor
  · decide
  · decide

theorem filterMap_strip_eq (parts : List Str) :
    parts.filterMap (fun part =>
        let p := stripWS part
        if p = [] then none else some (parseSegment p)) =
      (((parts.map stripWS).filter (fun p => decide (p ≠ []))).map parseSegment) := by
  induction parts with
  | nil => rfl
  | cons part rest ih =>
    by_cases h : stripWS part = []
    · simp [List.filterMap_cons, List.filter_cons, h, ih]
    · simp [List.filterMap_cons, List.filter_cons, h, ih]

/-- C7: parseCompoundSku yields the empty sequence on none and empty
input, and on every input it is the per-segment decomposition of exactly
the segments that are nonempty after trimming: segments made empty by
consecutive or leading/trailing joiners are silently dropped. -/
theorem parse_empty_and_drop :
    parse_compound_sku none = [] ∧
    parse_compound_sku (some []) = [] ∧
    (∀ sku : Str, parse_compound_sku (some sku) =
      (((splitJoins sku).map stripWS).filter (fun p => decide (p ≠ []))).map parseSegment) ∧
    parse_compound_sku (some ("+A++B/".toList)) = [("A".toList, 1), ("B".toList, 1)] := by
  refine ⟨rfl, rfl, ?_, by decide⟩
  intro sku
  by_cases h : sku = []
  · subst h
    rfl
  · show (if sku = [] then [] else _) = _
    rw [if_neg h]
    exact filterMap_strip_eq (splitJoins sku)

/-- C4 counterexample: the quantity-marker digits can denote zero, so the
parser does emit a reference with quantity 0 on input "0xA". -/
theorem parse_zero_qty_counterexample :
    parse_compound_sku (some ("0xA".toList)) = [("A".toList, 0)] := by
  decide

/-- C4 (amended): every reference produced from a segment without a
quantity marker has quantity 1, and a marked segment carries the numeric
value of its digits; hence when no trimmed segment carries a zero-valued
marker, every parsed quantity is at least 1. A zero-valued marker such as
"0xA" yields quantity 0. -/
theorem parse_qty_positive (sku : Str)
    (h : ∀ part ∈ (splitJoins sku).map stripWS, part ≠ [] → segHasZeroQty part = false) :
    ∀ pq ∈ parse_compound_sku (some sku), 1 ≤ pq.2 := by
  intro pq hpq
  by_cases hsku : sku = []
  · subst hsku
    exact absurd hpq (List.not_mem_nil pq)
  · have heq : parse_compound_sku (some sku) = (splitJoins sku).filterMap (fun part =>
        let p := stripWS part
        if p = [] then none else some (parseSegment p)) := by
      show (if sku = [] then [] else _) = _
      rw [if_neg hsku]
    rw [heq] at hpq
    rcases List.mem_filterMap.mp hpq with ⟨part, hpart, hsome⟩
    simp only at hsome
    by_cases hp : stripWS part = []
    · rw [if_pos hp] at hsome
      exact absurd hsome (by simp)
    · rw [if_neg hp] at hsome
      have hmem : stripWS part ∈ (splitJoins sku).map stripWS :=
        List.mem_map.mpr ⟨part, hpart, rfl⟩
      have hz : segHasZeroQty (stripWS part) = false := h _ hmem hp
      have hpq3 : pq = parseSegment (stripWS part) := by
        injection hsome with h1
        exact h1.symm
      subst hpq3
      unfold parseSegment
      unfold segHasZeroQty at hz
      cases hqp : qtyPre (stripWS part) with
      | some pr =>
        rcases pr with ⟨ds, rest⟩
        rw [hqp] at hz
        simp only at hz
        simp only [hqp]
        have : natOfDigits ds ≠ 0 := by
          intro hc
          rw [hc] at hz
          exact Bool.noConfusion hz
        omega
      | none =>
        rw [hqp] at hz
        simp only [hqp]
        cases hqs : qtySuf (stripWS part) with
        | some pr =>
          rcases pr with ⟨p, ds⟩
          rw [hqs] at hz
          simp only at hz
          simp only [hqs]
          have : natOfDigits ds ≠ 0 := by
            intro hc
            rw [hc] at hz
            exact Bool.noConfusion hz
          omega
        | none =>
          simp only [hqs]
          exact Nat.le.refl

/-- C4 witness: a compound SKU with marked and unmarked segments
satisfies the no-zero-marker hypothesis and every quantity is ≥ 1. -/
theorem parse_qty_positive_witness :
    (∀ part ∈ (splitJoins ("MAKDJR186+2xBL1850".toList)).map stripWS,
      part ≠ [] → segHasZeroQty part = false) ∧
    (∀ pq ∈ parse_compound_sku (some ("MAKDJR186+2xBL1850".toList)), 1 ≤ pq.2) :=
  ⟨by decide, parse_qty_positive ("MAKDJR186+2xBL1850".toList) (by decide)⟩

/- Normalizer claim theorems. -/

theorem normalize_sku_idem_aux (s v : Str) (h : normalize_sku (some s) = some v)
    (hv : v ≠ []) : normalize_sku (some v) = some v := by
  by_cases hs : s = []
  · subst hs
    exact absurd h (by simp [normalize_sku])
  · have hval : v = upperStr (stripWS s) := by
      have : normalize_sku (some s) = some (upperStr (stripWS s)) := by
        show (if s = [] then none else some (upperStr (stripWS s))) = _
        rw [if_neg hs]
      rw [this] at h
      injection h with h
      exact h.symm
    show (if v = [] then none else some (upperStr (stripWS v))) = some v
    rw [if_neg hv]
    congr 1
    simp only [upperStr] at hval ⊢
    have hstrip : stripWS v = v := by
      rw [hval, strip_map pySpace_toUpper, strip_strip]
    rw [hstrip, hval, List.map_map]
    exact List.map_congr_left (fun a _ => toUpper_toUpper a)

theorem fingerprint_title_idem_aux (t v : Str) (h : fingerprint_title (some t) = some v)
    (hv : v ≠ []) : fingerprint_title (some v) = some v := by
  by_cases ht : t = []
  · subst ht
    exact absurd h (by simp [fingerprint_title])
  · rw [fingerprint_characterization t ht] at h
    injection h with h
    have hws := wordsLA_all_la (t.map Char.toLower)
    have hlower : v.map Char.toLower = v := by
      rw [← h]
      have := List.map_congr_left (l := joinWords (titleWords t))
        (f := Char.toLower) (g := fun c => c) (fun c hc => by
          rcases joinWords_chars _ c hc with ⟨w, hw, hcw⟩ | rfl
          · exact toLower_fix_of_la ((hws w hw).2 c hcw)
          · decide)
      simpa using this
    rw [fingerprint_characterization v hv]
    have htv : titleWords v = titleWords t := by
      show wordsLA (v.map Char.toLower) = _
      rw [hlower, ← h]
      exact wordsLA_joinWords _ hws
    rw [htv, h]

/-- C8 counterexample: both normalizers return a non-none empty result on
some inputs, and both return none on the empty string, so applying the
function again does not reproduce the value: the claim fails at
normalize_sku(" ") and at fingerprint_title("!!!"). -/
theorem normalize_idem_counterexample :
    normalize_sku (some (" ".toList)) = some [] ∧ normalize_sku (some []) = none ∧
    fingerprint_title (some ("!!!".toList)) = some [] ∧
    fingerprint_title (some []) = none := by
  exact ⟨by decide, rfl, by decide, rfl⟩

/-- C8 (amended): normalizeIdentifier and fingerprintTitle are idempotent
on every input whose result is non-none and nonempty: when f(x) = some v
with v nonempty, f(v) = some v. (On inputs that normalize to the empty
string the functions are not idempotent, since the empty result maps to
none.) -/
theorem normalize_fingerprint_idem :
    (∀ s v : Str, normalize_sku (some s) = some v → v ≠ [] →
      normalize_sku (some v) = some v) ∧
    (∀ t v : Str, fingerprint_title (some t) = some v → v ≠ [] →
      fingerprint_title (some v) = some v) :=
  ⟨normalize_sku_idem_aux, fingerprint_title_idem_aux⟩

/-- C8 witness: concrete idempotence instances obtained from the
theorem. -/
theorem normalize_fingerprint_idem_witness :
    normalize_sku (some ("ab ".toList)) = some ("AB".toList) ∧
    normalize_sku (some ("AB".toList)) = some ("AB".toList) ∧
    fingerprint_title (some ("DeWalt!".toList)) = some ("dewalt".toList) ∧
    fingerprint_title (some ("dewalt".toList)) = some ("dewalt".toList) :=
  ⟨by decide, normalize_fingerprint_idem.1 ("ab ".toList) ("AB".toList)
      (by decide) (by decide),
   by decide, normalize_fingerprint_idem.2 ("DeWalt!".toList) ("dewalt".toList)
      (by decide) (by decide)⟩

/-- C9: two nonempty titles with the same sequence of lowercased
alphanumeric words (that is, titles differing only in casing, in the
punctuation characters used, and in the amount of whitespace or
punctuation between and around words) receive identical fingerprints. -/
theorem fingerprint_title_words_equiv (t1 t2 : Str) (h1 : t1 ≠ []) (h2 : t2 ≠ [])
    (hw : titleWords t1 = titleWords t2) :
    fingerprint_title (some t1) = fingerprint_title (some t2) := by
  rw [fingerprint_characterization t1 h1, fingerprint_characterization t2 h2, hw]

/-- C9 witness: the specification's example pair, discharged through the
word-equivalence theorem. -/
theorem fingerprint_title_words_equiv_witness :
    titleWords ("DeWalt Drill!!".toList) = titleWords ("dewalt   drill".toList) ∧
    fingerprint_title (some ("DeWalt Drill!!".toList)) =
      fingerprint_title (some ("dewalt   drill".toList)) :=
  ⟨by decide, fingerprint_title_words_equiv ("DeWalt Drill!!".toList)
    ("dewalt   drill".toList) (by decide) (by decide) (by decide)⟩

theorem wordsLA_nil_of_no_la {l : Str} (h : ∀ c ∈ l, isLowerAlnum c = false) :
    wordsLA l = [] := by
  induction l with
  | nil => rfl
  | cons c cs ih =>
    rw [wordsLA_cons_notla (h c (List.mem_cons_self c cs))]
    exact ih (fun c hc => h c (List.mem_cons_of_mem _ hc))

/-- C10: a nonempty title with no (ASCII) alphanumeric character
fingerprints to the empty string, not to none; hashing that fingerprint
yields none; and the listing row built from such a title therefore stores
fingerprint "" and fingerprint_hash none. -/
theorem fingerprint_empty_nonalnum (t : Str) (hne : t ≠ [])
    (hna : ∀ c ∈ t, isAsciiAlnum c = false) :
    fingerprint_title (some t) = some [] ∧
    (∀ digest : Str → Str, hash_fingerprint digest (fingerprint_title (some t)) = none) ∧
    (∀ (digest : Str → Str) (sku : Str) (asin : Option Str) (price : Int),
      (mkListingRow digest t sku asin price).fingerprint = some [] ∧
      (mkListingRow digest t sku asin price).fingerprint_hash = none) := by
  have hwords : titleWords t = [] := by
    apply wordsLA_nil_of_no_la
    intro c hc
    rcases List.mem_map.mp hc with ⟨y, hy, rfl⟩
    rw [toLower_fix_of_nonalnum (hna y hy)]
    exact la_false_of_nonalnum (hna y hy)
  have hfp : fingerprint_title (some t) = some [] := by
    rw [fingerprint_characterization t hne, hwords, joinWords_nil]
  have hhash : ∀ digest : Str → Str,
      hash_fingerprint digest (fingerprint_title (some t)) = none := by
    intro digest
    rw [hfp]
    rfl
  exact ⟨hfp, hhash, fun digest sku asin price => ⟨hfp, hhash digest⟩⟩

/-- C10 witness: the all-punctuation title. -/
theorem fingerprint_empty_nonalnum_witness :
    fingerprint_title (some ("!!!".toList)) = some [] ∧
    hash_fingerprint (fun _ => []) (fingerprint_title (some ("!!!".toList))) = none ∧
    (mkListingRow (fun _ => []) ("!!!".toList) ("S".toList) none 0).fingerprint_hash =
      none :=
  ⟨(fingerprint_empty_nonalnum ("!!!".toList) (by decide) (by decide)).1,
   (fingerprint_empty_nonalnum ("!!!".toList) (by decide) (by decide)).2.1 _,
   ((fingerprint_empty_nonalnum ("!!!".toList) (by decide) (by decide)).2.2
     (fun _ => []) ("S".toList) none 0).2⟩

/- Matcher claim theorems. -/

theorem firstSome_append (a b : List (Option Str)) :
    firstSome (a ++ b) = match firstSome a with
      | some s => some s
      | none => firstSome b := by
  induction a with
  | nil => rfl
  | cons o os ih =>
    cases o with
    | some s => rfl
    | none =>
      show firstSome (os ++ b) = _
      rw [ih]
      rfl

theorem option_match_id (m : Option Str) :
    (match m with | some s => some s | none => none) = m := by
  cases m with
  | some s => rfl
  | none => rfl

theorem pfxStep_eq (pu : Str) (comps : List Component) (pfx : Str) :
    pfxStep pu comps pfx =
      if pfx.isPrefixOf pu then findExact (pu.drop pfx.length) comps
      else findExact (pfx ++ pu) comps := by
  unfold pfxStep
  by_cases hsw : pfx.isPrefixOf pu = true
  · rw [if_pos hsw, if_pos hsw, if_pos hsw]
  · rw [if_neg hsw, if_neg hsw, if_neg hsw]
    exact option_match_id _

theorem tryPfxList_eq_firstSome (pu : Str) (comps : List Component) (pfxs : List Str) :
    tryPfxList pu comps pfxs =
      firstSome ((testPatternsFor pu pfxs).map (fun t => findExact t comps)) := by
  induction pfxs with
  | nil => rfl
  | cons pfx rest ih =>
    have hper : ((if pfx.isPrefixOf pu then [] else [pfx ++ pu]) ++
        (if pfx.isPrefixOf pu then [pu.drop pfx.length] else [])) =
        [if pfx.isPrefixOf pu then pu.drop pfx.length else pfx ++ pu] := by
      by_cases hsw : pfx.isPrefixOf pu = true
      · rw [if_pos hsw, if_pos hsw, if_pos hsw]
        rfl
      · rw [if_neg hsw, if_neg hsw, if_neg hsw]
        rfl
    have hflat : testPatternsFor pu (pfx :: rest) =
        (if pfx.isPrefixOf pu then pu.drop pfx.length else pfx ++ pu) ::
          testPatternsFor pu rest := by
      show ((if pfx.isPrefixOf pu then [] else [pfx ++ pu]) ++
        (if pfx.isPrefixOf pu then [pu.drop pfx.length] else [])) ++
          testPatternsFor pu rest = _
      rw [hper]
      rfl
    show (match pfxStep pu comps pfx with
      | some s => some s
      | none => tryPfxList pu comps rest) = _
    rw [hflat, pfxStep_eq, ih]
    by_cases hsw : pfx.isPrefixOf pu = true
    · rw [if_pos hsw, if_pos hsw]
      cases h : findExact (pu.drop pfx.length) comps with
      | some s =>
        show some s = match findExact (pu.drop pfx.length) comps with
          | some s => some s
          | none => firstSome ((testPatternsFor pu rest).map (fun t => findExact t comps))
        rw [h]
      | none =>
        show _ = match findExact (pu.drop pfx.length) comps with
          | some s => some s
          | none => firstSome ((testPatternsFor pu rest).map (fun t => findExact t comps))
        rw [h]
    · rw [if_neg hsw, if_neg hsw]
      cases h : findExact (pfx ++ pu) comps with
      | some s =>
        show some s = match findExact (pfx ++ pu) comps with
          | some s => some s
          | none => firstSome ((testPatternsFor pu rest).map (fun t => findExact t comps))
        rw [h]
      | none =>
        show _ = match findExact (pfx ++ pu) comps with
          | some s => some s
          | none => firstSome ((testPatternsFor pu rest).map (fun t => findExact t comps))
        rw [h]

/-- C3: the matcher attempts the tiers in order. First conjunct: the
first exact hit in catalog iteration order is returned (so an exact
catalog entry is always preferred over containment and prefix results).
Second: with no exact hit, the first containment hit in catalog order is
returned. Third: with no exact and no containment hit, the result is the
first hit of the exact lookups for the prefix-tier targets, which are
tried in the fixed order MAK, DEW, MAKITA, DEWALT with the add-prefix
test before the strip-prefix test for each prefix. Fourth: if no tier
hits, the result is none. -/
theorem matcher_tier_order (pattern : Str) (comps : List Component) :
    (∀ i, ∀ h : i < comps.length, exactHit pattern (comps.get ⟨i, h⟩) = true →
      (∀ j, ∀ hj : j < i, exactHit pattern (comps.get ⟨j, Nat.lt_trans hj h⟩) = false) →
      match_component_to_import pattern comps = some (comps.get ⟨i, h⟩).internal_sku) ∧
    ((∀ comp ∈ comps, exactHit pattern comp = false) →
      ∀ i, ∀ h : i < comps.length, containHit pattern (comps.get ⟨i, h⟩) = true →
      (∀ j, ∀ hj : j < i, containHit pattern (comps.get ⟨j, Nat.lt_trans hj h⟩) = false) →
      match_component_to_import pattern comps = some (comps.get ⟨i, h⟩).internal_sku) ∧
    ((∀ comp ∈ comps, exactHit pattern comp = false) →
      (∀ comp ∈ comps, containHit pattern comp = false) →
      match_component_to_import pattern comps =
        firstSome ((testPatterns (upperStr pattern)).map (fun t => findExact t comps))) ∧
    ((∀ comp ∈ comps, exactHit pattern comp = false) →
      (∀ comp ∈ comps, containHit pattern comp = false) →
      (∀ t ∈ testPatterns (upperStr pattern), findExact t comps = none) →
      match_component_to_import pattern comps = none) := by
  have hunfold : match_component_to_import pattern comps =
      match comps.find? (fun comp => exactHit pattern comp) with
      | some comp => some comp.internal_sku
      | none =>
        match comps.find? (fun comp => containHit pattern comp) with
        | some comp => some comp.internal_sku
        | none => tryPfxList (upperStr pattern) comps brandPfxs := rfl
  refine ⟨?_, ?_, ?_, ?_⟩
  · intro i h hp hearly
    rw [hunfold, find?_at_index (fun comp => exactHit pattern comp) comps h hp hearly]
  · intro hnoexact i h hp hearly
    rw [hunfold, List.find?_eq_none.mpr (fun x hx => by simp [hnoexact x hx]),
      find?_at_index (fun comp => containHit pattern comp) comps h hp hearly]
  · intro hnoexact hnocontain
    rw [hunfold, List.find?_eq_none.mpr (fun x hx => by simp [hnoexact x hx]),
      List.find?_eq_none.mpr (fun x hx => by simp [hnocontain x hx])]
    exact tryPfxList_eq_firstSome (upperStr pattern) comps brandPfxs
  · intro hnoexact hnocontain hnopfx
    rw [hunfold, List.find?_eq_none.mpr (fun x hx => by simp [hnoexact x hx]),
      List.find?_eq_none.mpr (fun x hx => by simp [hnocontain x hx])]
    rw [tryPfxList_eq_firstSome (upperStr pattern) comps brandPfxs]
    apply firstSome_eq_none
    intro o ho
    rcases List.mem_map.mp ho with ⟨t, ht, rfl⟩
    exact hnopfx t ht

/-- C3 witness: with a catalog holding both DEWDCB and DCB, the pattern
DCB is resolved by its exact entry (index 1), not by the earlier
containment candidate. -/
theorem matcher_tier_order_witness :
    match_component_to_import ("DCB".toList)
      [{ internal_sku := "DEWDCB".toList, description := [], brand := [],
         cost_ex_vat_pence := 0, is_active := true, source_file := [] },
       { internal_sku := "DCB".toList, description := [], brand := [],
         cost_ex_vat_pence := 0, is_active := true, source_file := [] }] =
      some ("DCB".toList) :=
  (matcher_tier_order ("DCB".toList)
    [{ internal_sku := "DEWDCB".toList, description := [], brand := [],
       cost_ex_vat_pence := 0, is_active := true, source_file := [] },
     { internal_sku := "DCB".toList, description := [], brand := [],
       cost_ex_vat_pence := 0, is_active := true, source_file := [] }]).1 1
    (by decide) (by decide)
    (fun j hj => by
      have hj0 : j = 0 := by omega
      subst hj0
      show exactHit ("DCB".toList)
        { internal_sku := "DEWDCB".toList, description := [], brand := [],
          cost_ex_vat_pence := 0, is_active := true, source_file := [] } = false
      decide)

/- Deduplication and the matcher: claim C1. -/

theorem find?_dedupAux (p : Component → Bool)
    (hp : ∀ c1 c2 : Component,
      upperStr c1.internal_sku = upperStr c2.internal_sku → p c1 = p c2) :
    ∀ (l : List Component) (seen : List Str),
      (∀ comp : Component, upperStr comp.internal_sku ∈ seen → p comp = false) →
      (dedupComponentsAux seen l).find? p = l.find? p := by
  intro l
  induction l with
  | nil => intro seen _; rfl
  | cons comp rest ih =>
    intro seen hseen
    by_cases hmem : upperStr comp.internal_sku ∈ seen
    · rw [show dedupComponentsAux seen (comp :: rest) = dedupComponentsAux seen rest from
        by rw [dedupComponentsAux, if_pos hmem]]
      rw [ih seen hseen]
      have hpc : p comp = false := hseen comp hmem
      rw [List.find?_cons_of_neg _ (by simp [hpc])]
    · rw [show dedupComponentsAux seen (comp :: rest) =
        comp :: dedupComponentsAux (upperStr comp.internal_sku :: seen) rest from
        by rw [dedupComponentsAux, if_neg hmem]]
      by_cases hpc : p comp = true
      · rw [List.find?_cons_of_pos _ hpc, List.find?_cons_of_pos _ hpc]
      · rw [List.find?_cons_of_neg _ hpc, List.find?_cons_of_neg _ hpc]
        apply ih
        intro c hc
        rcases List.mem_cons.mp hc with heq | hcseen
        · rw [hp c comp heq]
          simpa using hpc
        · exact hseen c hcseen

theorem findExact_dedup (t : Str) (comps : List Component) :
    findExact t (dedup_components comps) = findExact t comps := by
  unfold findExact dedup_components
  rw [find?_dedupAux (fun comp => upperStr comp.internal_sku == t)
    (fun c1 c2 h => by
      show (upperStr c1.internal_sku == t) = (upperStr c2.internal_sku == t)
      rw [h]) comps [] (by simp)]

theorem pfxStep_dedup (pu : Str) (comps : List Component) (pfx : Str) :
    pfxStep pu (dedup_components comps) pfx = pfxStep pu comps pfx := by
  rw [pfxStep_eq, pfxStep_eq, findExact_dedup, findExact_dedup]

theorem tryPfxList_dedup (pu : Str) (comps : List Component) (pfxs : List Str) :
    tryPfxList pu (dedup_components comps) pfxs = tryPfxList pu comps pfxs := by
  induction pfxs with
  | nil => rfl
  | cons pfx rest ih =>
    show (match pfxStep pu (dedup_components comps) pfx with
      | some s => some s
      | none => tryPfxList pu (dedup_components comps) rest) = _
    rw [pfxStep_dedup, ih]
    rfl

/-- C1 counterexample: resolve is NOT invariant under catalog
deduplication, because create_boms_and_listings receives the full,
non-deduplicated component list (deduplication happens only inside
create_component_sql) and the title-overlap fallback reads the
description of a discarded duplicate: with a catalog holding "ABC" (empty
description) and the case-duplicate "abc" (long description), the
listing resolves against "abc" on the full catalog but is unmatched on
the deduplicated one. -/
theorem resolve_dedup_counterexample :
    create_boms_and_listings [listingZZZ] [compPlainA, compDupB] ≠
      create_boms_and_listings [listingZZZ] (dedup_components [compPlainA, compDupB]) := by
  decide

/-- C1 (amended): deduplication by uppercased internal_sku (first
occurrence wins) is applied only when the component SQL is generated, and
the matching phase scans the full catalog; nevertheless the Component
Matcher itself is insensitive to deduplication: for every pattern,
match_component_to_import returns the same result on the catalog and on
its deduplication. (The full resolve is not invariant, because the
fallback scan reads descriptions of discarded duplicates.) -/
theorem match_component_dedup_invariant (pattern : Str) (comps : List Component) :
    match_component_to_import pattern (dedup_components comps) =
      match_component_to_import pattern comps := by
  have h1 : (dedup_components comps).find? (fun comp => exactHit pattern comp) =
      comps.find? (fun comp => exactHit pattern comp) := by
    unfold dedup_components
    exact find?_dedupAux _ (fun c1 c2 h => by unfold exactHit; rw [h]) comps [] (by simp)
  have h2 : (dedup_components comps).find? (fun comp => containHit pattern comp) =
      comps.find? (fun comp => containHit pattern comp) := by
    unfold dedup_components
    exact find?_dedupAux _ (fun c1 c2 h => by unfold containHit; rw [h]) comps [] (by simp)
  show (match (dedup_components comps).find? (fun comp => exactHit pattern comp) with
    | some comp => some comp.internal_sku
    | none =>
      match (dedup_components comps).find? (fun comp => containHit pattern comp) with
      | some comp => some comp.internal_sku
      | none => tryPfxList (upperStr pattern) (dedup_components comps) brandPfxs) =
    (match comps.find? (fun comp => exactHit pattern comp) with
    | some comp => some comp.internal_sku
    | none =>
      match comps.find? (fun comp => containHit pattern comp) with
      | some comp => some comp.internal_sku
      | none => tryPfxList (upperStr pattern) comps brandPfxs)
  rw [h1, h2, tryPfxList_dedup]

/- The fallback scan: claim C5. -/

theorem fallbackFind_eq_claim (comps : List Component) (item_name : Str)
    (hname : item_name ≠ []) :
    fallbackFind comps item_name = comps.find? (fallbackPredClaim item_name) := by
  apply find?_congr_my
  intro comp _
  by_cases hlen : 10 < (upperStr comp.description).length
  · have hdesc : comp.description ≠ [] := by
      intro hd
      rw [hd] at hlen
      exact absurd hlen (by simp [upperStr])
    simp [fallbackPredClaim, hdesc, hname, hlen]
  · simp [fallbackPredClaim, hlen]

/-- C5: for a listing whose SKU decomposition produced no matched
reference, the aggregator runs one fallback scan: the matched set is
exactly determined by the first catalog component (in iteration order)
satisfying the claim's overlap condition, recorded with quantity 1; if no
component satisfies it, the listing has zero matched components. The
second conjunct states the first-hit structure of that scan. -/
theorem fallback_scan (comps : List Component) (l : ListingRow)
    (hname : l.item_name ≠ []) (hsku : skuPhaseCore comps l.seller_sku = []) :
    (matchedComponents comps l =
      match comps.find? (fallbackPredClaim l.item_name) with
      | some comp => [(comp.internal_sku, 1)]
      | none => []) ∧
    ((comps.find? (fallbackPredClaim l.item_name) = none ∧
        ∀ comp ∈ comps, fallbackPredClaim l.item_name comp = false) ∨
      ∃ i, ∃ h : i < comps.length,
        fallbackPredClaim l.item_name (comps.get ⟨i, h⟩) = true ∧
        (∀ j, ∀ hj : j < i,
          fallbackPredClaim l.item_name (comps.get ⟨j, Nat.lt_trans hj h⟩) = false) ∧
        comps.find? (fallbackPredClaim l.item_name) = some (comps.get ⟨i, h⟩)) := by
  constructor
  · show (let m := skuPhaseCore comps l.seller_sku
      if m = [] then
        match fallbackFind comps l.item_name with
        | some comp => [(comp.internal_sku, 1)]
        | none => []
      else m) = _
    rw [show skuPhaseCore comps l.seller_sku = [] from hsku]
    rw [fallbackFind_eq_claim comps l.item_name hname]
    rfl
  · exact find?_spec (fallbackPredClaim l.item_name) comps

/-- C5 witness: a listing with an unmatched SKU resolves through the
fallback against the only overlapping component, with quantity 1. -/
theorem fallback_scan_witness :
    skuPhaseCore [compDupB] listingZZZ.seller_sku = [] ∧
    matchedComponents [compDupB] listingZZZ = [("abc".toList, 1)] := by
  refine ⟨by decide, ?_⟩
  rw [(fallback_scan [compDupB] listingZZZ (by decide) (by decide)).1]
  decide

/- The resolution aggregator: claim C2. -/

theorem resolve_fold_aux (comps : List Component) :
    ∀ (listings : List ListingRow) (acc : ResolveResult),
      listings.foldl (resolveStep comps) acc =
        { boms := acc.boms ++ listings.map mkBom
          bom_components := acc.bom_components ++ listings.flatMap (fun l => mkLinks comps l)
          listing_memory := acc.listing_memory ++ listings.map mkMemory
          unmatched := acc.unmatched ++
            (listings.filter (fun l => decide (matchedComponents comps l = []))).map
              mkUnmatchedRow } := by
  intro listings
  induction listings with
  | nil =>
    intro acc
    simp
  | cons l rest ih =>
    intro acc
    rw [List.foldl_cons, ih]
    by_cases hm : matchedComponents comps l = []
    · simp [resolveStep, List.filter_cons, hm, List.flatMap_cons, List.append_assoc]
    · simp [resolveStep, List.filter_cons, hm, List.flatMap_cons, List.append_assoc]

/-- C2: resolve emits exactly one BOM row and exactly one listing-memory
row per input listing (in order); its BOM component links are exactly the
per-listing matched references (so a link exists only for a successfully
matched reference); its unmatched collection holds exactly the listings
with zero matched components; and each listing either contributes an
unmatched record (exactly when it has zero matched components, fallback
included) or contributes at least one BOM component link keyed by its
seller SKU, never both. -/
theorem resolve_shape (listings : List ListingRow) (comps : List Component) :
    (create_boms_and_listings listings comps).boms = listings.map mkBom ∧
    (create_boms_and_listings listings comps).listing_memory = listings.map mkMemory ∧
    (create_boms_and_listings listings comps).boms.length = listings.length ∧
    (create_boms_and_listings listings comps).listing_memory.length = listings.length ∧
    (create_boms_and_listings listings comps).bom_components =
      listings.flatMap (fun l => mkLinks comps l) ∧
    (create_boms_and_listings listings comps).unmatched =
      (listings.filter (fun l => decide (matchedComponents comps l = []))).map
        mkUnmatchedRow ∧
    (∀ l ∈ listings, (matchedComponents comps l = [] ↔
      mkUnmatchedRow l ∈ (create_boms_and_listings listings comps).unmatched)) ∧
    (∀ l ∈ listings, matchedComponents comps l ≠ [] →
      ∃ link ∈ (create_boms_and_listings listings comps).bom_components,
        link.bom_sku = l.seller_sku) := by
  have hmain : create_boms_and_listings listings comps =
      { boms := listings.map mkBom
        bom_components := listings.flatMap (fun l => mkLinks comps l)
        listing_memory := listings.map mkMemory
        unmatched := (listings.filter
          (fun l => decide (matchedComponents comps l = []))).map mkUnmatchedRow } := by
    show listings.foldl (resolveStep comps) ⟨[], [], [], []⟩ = _
    rw [resolve_fold_aux comps listings ⟨[], [], [], []⟩]
    rfl
  rw [hmain]
  refine ⟨rfl, rfl, by simp, by simp, rfl, rfl, ?_, ?_⟩
  · intro l hl
    constructor
    · intro hm
      exact List.mem_map.mpr ⟨l, List.mem_filter.mpr ⟨hl, by simp [hm]⟩, rfl⟩
    · intro hmem
      rcases List.mem_map.mp hmem with ⟨l2, hl2, heq⟩
      have hm2 : matchedComponents comps l2 = [] := by
        have := (List.mem_filter.mp hl2).2
        simpa using this
      have hsku : l2.seller_sku = l.seller_sku := congrArg UnmatchedRow.seller_sku heq
      have hname : l2.item_name = l.item_name := congrArg UnmatchedRow.item_name heq
      show matchedComponentsCore comps l.seller_sku l.item_name = []
      rw [← hsku, ← hname]
      exact hm2
  · intro l hl hm
    rcases List.exists_mem_of_ne_nil _ hm with ⟨m, hmm⟩
    refine ⟨{ bom_sku := l.seller_sku, component_sku := m.1, qty_required := m.2 }, ?_, rfl⟩
    apply List.mem_flatMap.mpr
    exact ⟨l, hl, List.mem_map.mpr ⟨m, hmm, rfl⟩⟩

/-- C2 witness: a single unmatched listing against an empty catalog
contributes exactly its unmatched record. -/
theorem resolve_shape_witness :
    mkUnmatchedRow listingZZZ ∈
      (create_boms_and_listings [listingZZZ] []).unmatched :=
  ((resolve_shape [listingZZZ] []).2.2.2.2.2.2.1 listingZZZ (by decide)).mp (by decide)
